import Mathlib

/-!
Verification of the core of `django-finder` (an elfinder connector for Django).

The development shallowly embeds the node hierarchy, the permission check of
`elfinder/models.py`, the driver commands of `elfinder/drivers/base.py`
(`FinderDriver`) and the argument-binding loop shared by
`elfinder/views.py:run_command` and `elfinder/sites.py:ElfinderSite.run_command`.

Modelling conventions:
* A database row of the single-table `INode` tree together with its linked
  `Folder` / `File` / `Image` row is one record `INodeRec`; the store is the
  list of such records.  The public hash of a node is the `INode` primary key,
  embedded as `INodeRec.id`.
* Django ORM expressions are read at their relational meaning:
  `x.children` is the set of rows whose `parent` is `x`,
  `Model.objects.get(pk=h)` is lookup by id, `save()` on a record with
  `pk = None` inserts a row with a fresh (auto-increment) primary key, and
  `delete()` cascades over the `parent` foreign key, i.e. removes the whole
  subtree.  Timestamps (`created` / `modified`) play no role in any claim and
  are omitted from the record.
* Auto-increment keys mean that a parent row always has a smaller id than its
  children, which the well-formedness predicate `WF` records; `WF` also
  records referential integrity of `parent` and the `models.py` constraint
  that only folders can be parents (`BaseFile.__init__` raises `FieldError`
  otherwise).
* `has_perm` is duck-typed on the configured model classes (`FinderDriver`
  accepts `inode_model` / `folder_model` / `file_model` parameters), so the
  driver functions take the permission oracle `hp : PermFn` as a parameter;
  `modelsPerm` is the oracle implemented by the shipped `models.py` classes.
* A raised exception aborts the command and is turned into the protocol
  error envelope by the dispatcher, but mutations already committed to the
  database stay.  Driver operations therefore return
  `Store × Except Err α`: the final store (kept even on error) and either the
  response payload or the raised error.
* The file blob is represented by `blobRef` (the value of the `raw` file
  field, i.e. a reference to stored content) and `blobSize` (its byte
  length).
* Python `AttributeError`s that the shipped classes make unavoidable are
  modelled as `Err.attributeError` carrying the attribute name.
  `_get_inode` returns the *cast* `Folder`/`File`/`Image` row
  (`get_rel_type`), and the `children` accessor exists only on `INode`
  instances (it is the `related_name` of `INode.parent`), so
  `_children_tree`'s walk and `paste`'s collision check
  (`dst_dir.children...`) raise `AttributeError` on their first evaluation;
  the dispatcher turns the exception into the error envelope and the store
  keeps whatever was committed before it (nothing, on these paths).
-/

/-- Node kinds of the shipped models: `Folder`, `File` and its subclass
`Image` (single-table inheritance over `INode.related_type`). -/
inductive Kind where
  | folder
  | file
  | image
deriving DecidableEq, Repr

/-- One node of the hierarchy: the `INode` row joined with its
`Folder`/`File`/`Image` row.  `id` is the `INode` primary key and doubles as
the public hash; `parent` is the nullable tree foreign key. -/
structure INodeRec where
  id : Nat
  parent : Option Nat
  name : String
  kind : Kind
  blobSize : Nat
  blobRef : Nat
deriving DecidableEq, Repr

abbrev Store := List INodeRec

/-- The caller identity as seen by `models.py`: whether it is a
`django.contrib.auth.models.User` instance (anonymous users are not), the
`is_superuser` flag, and the external ACL consulted through
`user.has_perm(codename, cls)`. -/
structure UserM where
  isUser : Bool
  isSuperuser : Bool
  grants : String → Bool

/-- Errors raised by the driver and dispatcher; the dispatcher converts any
of them into the protocol's error envelope. -/
inductive Err where
  | notFound
  | permissionDenied
  | alreadyExists (name : String)
  | missingArg (name : String)
  | attributeError (attr : String)
deriving DecidableEq, Repr

/-- The descriptor dict built by `ElfinderMixin.info` (plus the `dirs` count
added by `Folder.info`).  `phash = none` encodes the empty string.  The
timestamp field is omitted (no claim mentions it). -/
structure Info where
  name : String
  hash : Nat
  phash : Option Nat
  mime : String
  size : Nat
  read : Bool
  write : Bool
  rm : Bool
  locked : Bool
  dirs : Option Nat
deriving DecidableEq, Repr

/-- A permission oracle: `hp perm user node` is `node.has_perm(perm, user)`
of the configured model classes. -/
abbrev PermFn := String → UserM → INodeRec → Bool

/-- `BaseFile.PERMISSIONS` from `models.py`. -/
def PERMISSIONS : List String := ["read", "write", "execute", "remove", "add"]

/-- `BaseFile.has_perm` as shipped: the concrete classes `Folder`, `File` and
`Image` set only `mimetypes` in their `FileMeta`, so `base_permissions`
keeps its default `False` and `FileOptions.contribute_to_class` adds no
`has_<perm>_permission` methods.  When `basePerms` is true the generated
method is modelled too; note the Python closure captures the loop variable
`perm` by reference, so every generated method builds its codename from the
final element of `PERMISSIONS`, which is `"add"`. -/
def modelsHasPerm (basePerms : Bool) (verboseName : String) (_perm : String)
    (u : UserM) : Bool :=
  if basePerms then
    if u.isUser then u.isSuperuser || u.grants (String.append "add_" verboseName)
    else false
  else
    if u.isUser then u.isSuperuser else false

/-- `Meta.verbose_name` of the shipped model classes. -/
def verboseNameOf : Kind → String
  | Kind.folder => "folder"
  | Kind.file => "file"
  | Kind.image => "image"

/-- `base_permissions` of the shipped model classes: none of their `FileMeta`
declarations sets it, so it is `False` everywhere. -/
def basePermsOf : Kind → Bool
  | Kind.folder => false
  | Kind.file => false
  | Kind.image => false

/-- `node.has_perm(perm, user)` for a node of the shipped classes. -/
def nodeHasPerm (perm : String) (u : UserM) (r : INodeRec) : Bool :=
  modelsHasPerm (basePermsOf r.kind) (verboseNameOf r.kind) perm u

/-- The codename the spec's resolver would consult for `(kind, action)`:
an applicable policy in the sense of the specification. -/
def applicableGrants (k : Kind) (perm : String) (u : UserM) : Bool :=
  basePermsOf k && u.grants (String.append (String.append perm "_") (verboseNameOf k))

/-- The shipped permission oracle, plugged into the driver. -/
def modelsPerm : PermFn := fun perm u r => nodeHasPerm perm u r

/-- `INodeManager.get_hash`: lookup of a node by its hash (primary key). -/
def getNode (st : Store) (h : Nat) : Option INodeRec :=
  st.find? (fun r => r.id == h)

/-- `x.children`: the rows whose `parent` foreign key is `x`. -/
def childrenOf (st : Store) (pid : Nat) : List INodeRec :=
  st.filter (fun r => r.parent == some pid)

/-- The next auto-increment primary key the database would assign. -/
def maxId (st : Store) : Nat :=
  (st.map (fun r => r.id)).foldr Nat.max 0

def freshId (st : Store) : Nat := maxId st + 1

/-- The ids of the strict ancestors of the node with id `i`, nearest parent
first, computed by walking the `parent` links (`fuel` bounds the walk; ids
strictly decrease along `parent` links, so `fuel = i` always suffices). -/
def ancIds (st : Store) : Nat → Nat → List Nat
  | 0, _ => []
  | fuel + 1, i =>
    match st.find? (fun r => r.id == i) with
    | none => []
    | some r =>
      match r.parent with
      | none => []
      | some p => p :: ancIds st fuel p

/-- The ancestor-id chain of the node with id `i`. -/
def chainOf (st : Store) (i : Nat) : List Nat := ancIds st i i

/-- `inode.delete()`: Django cascades the deletion over the `parent` foreign
key, removing the node and every descendant. -/
def deleteRec (st : Store) (r : INodeRec) : Store :=
  st.filter (fun x => !(x.id == r.id || decide (r.id ∈ chainOf st x.id)))

/-- `ElfinderMixin.size`: the blob byte length for file kinds (`raw.size`),
`0` for folders (no `raw` attribute). -/
def nodeSize (r : INodeRec) : Nat :=
  if r.kind == Kind.folder then 0 else r.blobSize

/-- `ElfinderMixin.mimetype`: the first entry of the class `FileMeta.mimetypes`. -/
def mimeOf : Kind → String
  | Kind.folder => "directory"
  | Kind.file => "application/octet-stream"
  | Kind.image => "image/png"

/-- `Folder.info`'s `dirs` entry: `Folder.objects.filter(parent=self).count()`. -/
def childFolderCount (st : Store) (pid : Nat) : Nat :=
  (st.filter (fun r => r.parent == some pid && r.kind == Kind.folder)).length

/-- `node.info(user)` (`ElfinderMixin.info`, refined by `Folder.info`). -/
def infoOf (st : Store) (hp : PermFn) (u : UserM) (r : INodeRec) : Info :=
  { name := r.name
    hash := r.id
    phash := r.parent
    mime := mimeOf r.kind
    size := nodeSize r
    read := hp "read" u r
    write := hp "write" u r
    rm := hp "remove" u r
    locked := r.parent.isNone
    dirs := if r.kind == Kind.folder then some (childFolderCount st r.id) else none }

/-- `FinderDriver._append_info_if` applied to one node: the descriptor that
is appended when the node is readable (with `phash` blanked on the declared
root). -/
def appendedInfo (st : Store) (hp : PermFn) (u : UserM) (rootId : Nat)
    (r : INodeRec) : Info :=
  let i := infoOf st hp u r
  if r.id == rootId then { i with phash := none } else i

/-- The readable children of the node with id `pid`; `readable` stands for
`fun item => item.has_perm('read', user)`. -/
def readChildren (st : Store) (readable : INodeRec → Bool) (pid : Nat) :
    List INodeRec :=
  (childrenOf st pid).filter readable

/-- The queue phase of `FinderDriver._children_tree`: the Python loop keeps
`data` (appended descriptors) and `children` (the same nodes) in lockstep and
dequeues `children[i]` until `i` catches up with `len(data)`, i.e. until the
queue is exhausted.  Each dequeued node contributes its readable children,
which are both emitted and enqueued.  `fuel` bounds the number of dequeue
steps; on a well-formed store every node is enqueued at most once, so
`fuel = st.length` suffices and the model agrees with the unbounded loop. -/
def bfsAux (st : Store) (readable : INodeRec → Bool) :
    Nat → List INodeRec → List INodeRec
  | 0, _ => []
  | _ + 1, [] => []
  | fuel + 1, n :: rest =>
    let cs := readChildren st readable n.id
    cs ++ bfsAux st readable fuel (rest ++ cs)

/-- The loop of `FinderDriver._children_tree` read relationally, i.e. the
list of nodes it would emit (as `item.info(user)` descriptors, in this
order) *were* `curr_node.children.select_subclasses()` the child-row query
it was written to be.  On the shipped models that very expression raises
`AttributeError` before the first iteration completes — `curr_node` is the
cast `Folder`/`File` row, which has no `children` attribute, and
`INodeManager` has no `select_subclasses` — so this walk is never executed
at runtime (see `treeData` for the faithful behavior).  The definition is
translated from the loop as written and is kept only to state the
permission-filtering property the walk was intended to have
(`children_tree_intended_filter`), in support of the C1 verdict. -/
def childrenTree (st : Store) (readable : INodeRec → Bool) (startId : Nat) :
    List INodeRec :=
  let first := readChildren st readable startId
  first ++ bfsAux st readable st.length first

/-- `FinderDriver._tree` with `tree` unset, as used by the `open`, `tree`
and `list` commands: resolve the target, then the root (a missing hash
raises `DoesNotExist`), then call `_children_tree`.  Its first statement,
`for item in curr_node.children.select_subclasses()`, is evaluated on the
cast `Folder`/`File` row returned by `_get_inode`; those classes have no
`children` attribute (the related name lives on `INode`) and
`INodeManager` has no `select_subclasses` either, so the call raises
`AttributeError` unconditionally: no listing is ever produced. -/
def treeData (st : Store) (_hp : PermFn) (_u : UserM)
    (rootId targetId : Nat) : Except Err (List Info) :=
  match getNode st targetId with
  | none => Except.error Err.notFound
  | some _ =>
    match getNode st rootId with
    | none => Except.error Err.notFound
    | some _ => Except.error (Err.attributeError "children")

/-- `FinderDriver._get_cwd`. -/
def getCwd (st : Store) (hp : PermFn) (u : UserM) (rootId targetId : Nat) :
    Except Err Info :=
  match getNode st targetId with
  | none => Except.error Err.notFound
  | some node =>
    let cwd := infoOf st hp u node
    Except.ok (if targetId == rootId then { cwd with phash := none } else cwd)

/-- The `tree` command. -/
def treeCmd (st : Store) (hp : PermFn) (u : UserM) (rootId targetId : Nat) :
    Except Err (List Info) :=
  treeData st hp u rootId targetId

/-- The `open` command (without the ancestor flag): `files` and `cwd`. -/
def openCmd (st : Store) (hp : PermFn) (u : UserM) (rootId : Nat)
    (target : Option Nat) : Except Err (List Info × Info) :=
  let t := target.getD rootId
  match treeData st hp u rootId t with
  | Except.error e => Except.error e
  | Except.ok files =>
    match getCwd st hp u rootId t with
    | Except.error e => Except.error e
    | Except.ok cwd => Except.ok (files, cwd)

/-- The `list` command: the names of the listed descriptors. -/
def listCmd (st : Store) (hp : PermFn) (u : UserM) (rootId targetId : Nat) :
    Except Err (List String) :=
  match treeData st hp u rootId targetId with
  | Except.error e => Except.error e
  | Except.ok tree => Except.ok (tree.map (fun i => i.name))

/-- `FinderDriver.mkdir`: permission check on the parent, then
`Folder.objects.get_or_create(name=..., parent=..., owner=...)`.
`FileManager.get_or_create` first tries `get`, whose kwargs are rewritten by
`_correct_kwargs`: `parent` becomes `inode__parent` and the `owner` filter is
dropped (it is written back into the wrong dict), so the lookup matches on
name and parent only, and only against `Folder` rows.  A match is returned
as-is (`created=False`) and reported under `added`; otherwise a new folder
row is inserted. -/
def mkdirCmd (hp : PermFn) (u : UserM) (name : String) (target : Nat)
    (st : Store) : Store × Except Err (List Info) :=
  match getNode st target with
  | none => (st, Except.error Err.notFound)
  | some parDir =>
    if !hp "add" u parDir then (st, Except.error Err.permissionDenied)
    else
      match st.find? (fun r =>
          r.kind == Kind.folder && r.name == name && r.parent == some parDir.id) with
      | some existing => (st, Except.ok [infoOf st hp u existing])
      | none =>
        let newDir : INodeRec :=
          { id := freshId st, parent := some parDir.id, name := name
            kind := Kind.folder, blobSize := 0, blobRef := 0 }
        (st ++ [newDir], Except.ok [infoOf (st ++ [newDir]) hp u newDir])

/-- `FinderDriver.rename`: permission check on the target, then the name is
overwritten and saved — no sibling-collision check and no root check. -/
def renameCmd (hp : PermFn) (u : UserM) (name : String) (target : Nat)
    (st : Store) : Store × Except Err (List Info × List Nat) :=
  match getNode st target with
  | none => (st, Except.error Err.notFound)
  | some inode =>
    if !hp "write" u inode then (st, Except.error Err.permissionDenied)
    else
      let renamed : INodeRec := { inode with name := name }
      let st' := st.map (fun r => if r.id == inode.id then renamed else r)
      (st', Except.ok ([infoOf st' hp u renamed], [target]))

/-- `FinderDriver.remove`: per target, resolve it, check the `remove`
permission (raising `PermissionDenied` aborts the whole command; the store
keeps the deletions already performed, but the accumulated `removed` list is
discarded in favour of the error envelope), then delete recursively. -/
def removeCmd (hp : PermFn) (u : UserM) :
    List Nat → Store → Store × Except Err (List Nat)
  | [], st => (st, Except.ok [])
  | t :: ts, st =>
    match getNode st t with
    | none => (st, Except.error Err.notFound)
    | some inode =>
      if !hp "remove" u inode then (st, Except.error Err.permissionDenied)
      else
        let st' := deleteRec st inode
        match removeCmd hp u ts st' with
        | (st'', Except.ok removed) => (st'', Except.ok (t :: removed))
        | (st'', Except.error e) => (st'', Except.error e)

/-- `FinderDriver.paste`: resolve source and destination, check `add` on
the destination once up front, then loop over the targets.  The first loop
iteration resolves its target and checks `read` permission, and then
evaluates the collision check `dst_dir.children.filter(name=inode.name)` —
but `dst_dir` is the cast `Folder` row, which has no `children` attribute,
so this raises `AttributeError`.  The collision `raise`, `_copy_inode` and
the `cut` branch below it are unreachable: a paste with at least one
target never copies, moves or deletes anything and never reports the
collision error, while an empty batch returns empty `added`/`removed`
lists.  (`_copy_inode` itself is broken twice over even as dead code:
`new_inode.pk = new_inode.id = None` clears the `Folder`/`File` row key,
not the `INode` key that is the public hash — after `copy.copy`,
`inode_id` still references the source's `INode` — and
`new_inode.parent = dst_dir` assigns to the getter-only `parent` property
of `BaseFile`, which would raise `AttributeError` as well.)  The `cut`
parameter is never inspected before the crash. -/
def pasteCmd (hp : PermFn) (u : UserM) (targets : List Nat) (src dst : Nat)
    (_cut : String) (st : Store) : Store × Except Err (List Info × List Nat) :=
  match getNode st src with
  | none => (st, Except.error Err.notFound)
  | some _ =>
    match getNode st dst with
    | none => (st, Except.error Err.notFound)
    | some dstDir =>
      if !hp "add" u dstDir then (st, Except.error Err.permissionDenied)
      else
        match targets with
        | [] => (st, Except.ok ([], []))
        | t :: _ =>
          match getNode st t with
          | none => (st, Except.error Err.notFound)
          | some inode =>
            if !hp "read" u inode then (st, Except.error Err.permissionDenied)
            else (st, Except.error (Err.attributeError "children"))

/-- `total_size`: `Folder.total_size` sums `total_size` over the folder's
children; `ElfinderMixin.total_size` of a file kind is its `size`, the blob
byte length.  The Python recursion is unbounded; `fuel` bounds the depth and
any `fuel` at least the tree height computes the same value. -/
def totalSize (st : Store) : Nat → INodeRec → Nat
  | 0, r => nodeSize r
  | fuel + 1, r =>
    if r.kind == Kind.folder then
      ((childrenOf st r.id).map (totalSize st fuel)).sum
    else nodeSize r

/-- `FinderDriver.size`: resolve each target and sum the `total_size`
values. -/
def sizeCmd (st : Store) (fuel : Nat) : List Nat → Except Err Nat
  | [] => Except.ok 0
  | t :: ts =>
    match getNode st t with
    | none => Except.error Err.notFound
    | some inode =>
      match sizeCmd st fuel ts with
      | Except.ok s => Except.ok (totalSize st fuel inode + s)
      | Except.error e => Except.error e

/-- A value of the Python parameter bag, with its truthiness. -/
inductive PyVal where
  | str (s : String)
  | strs (l : List String)
  | obj
  | noneV
deriving DecidableEq, Repr

def PyVal.truthy : PyVal → Bool
  | PyVal.str s => !(s == "")
  | PyVal.strs l => !l.isEmpty
  | PyVal.obj => true
  | PyVal.noneV => false

/-- The argument-binding loop of `run_command` (`views.py` and `sites.py` hold
the same code): walk the driver function's positional arguments; skip
`self`; an argument that is present in the request data *and truthy* is
bound; otherwise, if its position is below `index`
(`len(args) - len(defaults)`, i.e. it has no default), the
missing-mandatory-argument exception is raised.  `pos` tracks
`args.index(arg)` (Python signatures have pairwise-distinct argument
names). -/
def bindArgs (data : String → Option PyVal) :
    List String → Nat → Nat → Except Err (List (String × PyVal))
  | [], _, _ => Except.ok []
  | a :: rest, pos, idx =>
    if a == "self" then bindArgs data rest (pos + 1) idx
    else
      match data a with
      | some v =>
        if v.truthy then
          match bindArgs data rest (pos + 1) idx with
          | Except.ok bs => Except.ok ((a, v) :: bs)
          | Except.error e => Except.error e
        else if pos < idx then Except.error (Err.missingArg a)
        else bindArgs data rest (pos + 1) idx
      | none =>
        if pos < idx then Except.error (Err.missingArg a)
        else bindArgs data rest (pos + 1) idx

/-- `run_command`: bind the arguments, then call the driver function on the
bound parameters; a binding failure is raised before the driver is invoked
and becomes the error envelope at the dispatcher boundary. -/
def runCommand {α : Type} (driverFunc : List (String × PyVal) → Except Err α)
    (args : List String) (idx : Nat) (data : String → Option PyVal) :
    Except Err α :=
  match bindArgs data args 0 idx with
  | Except.error e => Except.error e
  | Except.ok bs => driverFunc bs

/-- Well-formed store: primary keys are pairwise distinct, a parent row has a
smaller (earlier-assigned) primary key than its children, `parent` references
an existing row, and only folder rows are parents (`BaseFile.__init__`
rejects non-folder parents). -/
structure WF (st : Store) : Prop where
  distinct : st.Pairwise (fun a b => a.id ≠ b.id)
  parentLt : ∀ r ∈ st, ∀ p ∈ r.parent, p < r.id
  parentMem : ∀ r ∈ st, ∀ p ∈ r.parent, ∃ q ∈ st, q.id = p
  parentFolder : ∀ r ∈ st, ∀ p ∈ r.parent, ∀ q ∈ st, q.id = p →
    q.kind = Kind.folder

/-- Specification-side reachability: `RDesc st readable s n` holds when `n`
is a strict descendant of the node with id `s` and `n` together with every
strict ancestor of `n` below `s` is readable. -/
inductive RDesc (st : Store) (readable : INodeRec → Bool) : Nat → INodeRec → Prop where
  | base {p : Nat} {c : INodeRec} :
      c ∈ st → c.parent = some p → readable c = true → RDesc st readable p c
  | step {p : Nat} {c n : INodeRec} :
      c ∈ st → c.parent = some p → readable c = true →
      RDesc st readable c.id n → RDesc st readable p n

/-- Specification-side list of all strict descendants of the node with id
`i`, depth-first (`fuel` bounds the depth). -/
def descList (st : Store) : Nat → Nat → List INodeRec
  | 0, _ => []
  | fuel + 1, i =>
    (childrenOf st i).flatMap (fun c => c :: descList st fuel c.id)

/-- The summed blob sizes of the file records of a list. -/
def fileSum (l : List INodeRec) : Nat :=
  ((l.filter (fun r => !(r.kind == Kind.folder))).map (fun r => r.blobSize)).sum

instance exceptDecEq {ε α : Type} [DecidableEq ε] [DecidableEq α] :
    DecidableEq (Except ε α)
  | Except.ok x, Except.ok y =>
    if h : x = y then isTrue (by rw [h])
    else isFalse (by intro he; cases he; exact h rfl)
  | Except.ok _, Except.error _ => isFalse (by intro he; cases he)
  | Except.error _, Except.ok _ => isFalse (by intro he; cases he)
  | Except.error e, Except.error f =>
    if h : e = f then isTrue (by rw [h])
    else isFalse (by intro he; cases he; exact h rfl)

/-- Recognizer for the missing-mandatory-argument failure of the
dispatcher. -/
def isMissingArgErr {α : Type} : Except Err α → Bool
  | Except.error (Err.missingArg _) => true
  | _ => false

/-- Nodes of the store `wstore` used by witnesses and counterexamples. -/
def wroot : INodeRec :=
  { id := 1, parent := none, name := "root", kind := Kind.folder
    blobSize := 0, blobRef := 0 }

def wdest : INodeRec :=
  { id := 2, parent := some 1, name := "dest", kind := Kind.folder
    blobSize := 0, blobRef := 0 }

def wfileA : INodeRec :=
  { id := 3, parent := some 1, name := "a", kind := Kind.file
    blobSize := 120, blobRef := 31 }

def wfileB : INodeRec :=
  { id := 4, parent := some 1, name := "b", kind := Kind.file
    blobSize := 7, blobRef := 41 }

def wdestB : INodeRec :=
  { id := 5, parent := some 2, name := "b", kind := Kind.file
    blobSize := 9, blobRef := 51 }

def wfolderF : INodeRec :=
  { id := 6, parent := some 1, name := "f", kind := Kind.folder
    blobSize := 0, blobRef := 0 }

def wfileG : INodeRec :=
  { id := 7, parent := some 6, name := "g", kind := Kind.file
    blobSize := 10, blobRef := 77 }

/-- A store used by several witnesses: a root folder, a destination folder
`dest` already holding a file `b`, files `a` and `b` under the root, and a
folder `f` holding a file `g`. -/
def wstore : Store :=
  [wroot, wdest, wfileA, wfileB, wdestB, wfolderF, wfileG]

/-- A request parameter bag whose `name` entry is present but empty. -/
def wdata : String → Option PyVal :=
  fun a => if a == "name" then some (PyVal.str "") else some PyVal.obj

/-- A superuser identity. -/
def superU : UserM :=
  { isUser := true, isSuperuser := true, grants := fun _ => false }

/-- An authenticated non-superuser with an empty ACL. -/
def plainU : UserM :=
  { isUser := true, isSuperuser := false, grants := fun _ => false }

/-- An anonymous identity (not a `User` instance). -/
def anonU : UserM :=
  { isUser := false, isSuperuser := false, grants := fun _ => false }

/-! ## Basic facts about the store -/

theorem mem_childrenOf {st : Store} {pid : Nat} {r : INodeRec} :
    r ∈ childrenOf st pid ↔ r ∈ st ∧ r.parent = some pid := by
  simp [childrenOf, List.mem_filter]

theorem mem_readChildren {st : Store} {readable : INodeRec → Bool} {pid : Nat}
    {r : INodeRec} :
    r ∈ readChildren st readable pid ↔
      (r ∈ st ∧ r.parent = some pid) ∧ readable r = true := by
  simp [readChildren, List.mem_filter, mem_childrenOf]

theorem idInj {st : Store} (hdist : st.Pairwise (fun a b => a.id ≠ b.id)) :
    ∀ a ∈ st, ∀ b ∈ st, a.id = b.id → a = b := by
  intro a ha b hb hab
  by_contra hne
  have hsym : Symmetric (fun a b : INodeRec => a.id ≠ b.id) := by
    intro x y h e
    exact h e.symm
  exact List.Pairwise.forall hsym hdist ha hb hne hab

theorem getNode_mem {st : Store} {h : Nat} {r : INodeRec}
    (hg : getNode st h = some r) : r ∈ st ∧ r.id = h := by
  refine ⟨List.mem_of_find?_eq_some hg, ?_⟩
  simpa using List.find?_some hg

theorem getNode_self {st : Store}
    (hdist : st.Pairwise (fun a b => a.id ≠ b.id)) {r : INodeRec} (hr : r ∈ st) :
    getNode st r.id = some r := by
  have hex : (st.find? (fun x => x.id == r.id)).isSome :=
    List.find?_isSome.2 ⟨r, hr, by simp⟩
  obtain ⟨x, hx⟩ := Option.isSome_iff_exists.1 hex
  have hxm := List.mem_of_find?_eq_some hx
  have hxp : x.id = r.id := by simpa using List.find?_some hx
  have hxr : x = r := idInj hdist x hxm r hr hxp
  rw [getNode, hx, hxr]

theorem mem_maxId {st : Store} {r : INodeRec} (hr : r ∈ st) : r.id ≤ maxId st := by
  unfold maxId
  induction st with
  | nil => cases hr
  | cons a l ih =>
    rcases List.mem_cons.1 hr with h | h
    · subst h
      simp [Nat.le_max_left]
    · have := ih h
      simp only [List.map_cons, List.foldr_cons]
      exact le_trans this (Nat.le_max_right _ _)

/-! ## C8: permission resolution of `models.py` -/

/-- C8: for every node of the shipped model classes, every action of
`BaseFile.PERMISSIONS` and every identity: a superuser passes the check; an
identity that is not a `User` instance is denied; an authenticated
non-superuser for whom no applicable policy grants the action is denied
(default-deny).  (The shipped classes never enable `base_permissions`, so no
policy is ever applicable and the last clause covers every non-superuser.) -/
theorem claim8_permission_default_deny (r : INodeRec) (perm : String) (u : UserM)
    (_hperm : perm ∈ PERMISSIONS) :
    (u.isUser = true → u.isSuperuser = true → nodeHasPerm perm u r = true) ∧
    (u.isUser = false → nodeHasPerm perm u r = false) ∧
    (u.isUser = true → u.isSuperuser = false →
      applicableGrants r.kind perm u = false → nodeHasPerm perm u r = false) := by
  have hb : basePermsOf r.kind = false := by cases r.kind <;> rfl
  refine ⟨?_, ?_, ?_⟩
  · intro h1 h2
    simp [nodeHasPerm, modelsHasPerm, hb, h1, h2]
  · intro h1
    simp [nodeHasPerm, modelsHasPerm, hb, h1]
  · intro h1 h2 _
    simp [nodeHasPerm, modelsHasPerm, hb, h1, h2]

/-- Witness for C8 at concrete identities and a concrete node. -/
theorem claim8_witness :
    nodeHasPerm "read" superU wroot = true ∧
    nodeHasPerm "read" anonU wroot = false ∧
    nodeHasPerm "read" plainU wroot = false :=
  ⟨(claim8_permission_default_deny wroot "read" superU (by decide)).1 rfl rfl,
   (claim8_permission_default_deny wroot "read" anonU (by decide)).2.1 rfl,
   (claim8_permission_default_deny wroot "read" plainU (by decide)).2.2 rfl rfl rfl⟩

/-! ## C10: the dispatcher treats present-but-falsy parameters as absent -/

theorem bindArgs_mask (data : String → Option PyVal) (a : String) (v : PyVal)
    (hv : data a = some v) (hf : v.truthy = false) :
    ∀ (args : List String) (pos idx : Nat),
      bindArgs data args pos idx =
        bindArgs (fun x => if x == a then none else data x) args pos idx := by
  intro args
  induction args with
  | nil => intro pos idx; rfl
  | cons b rest ih =>
    intro pos idx
    by_cases hb : b = "self"
    · simp [bindArgs, hb, ih]
    · by_cases hba : b = a
      · subst hba
        simp [bindArgs, hb, hv, hf, ih]
      · cases hdb : data b with
        | none => simp [bindArgs, hb, hba, hdb, ih]
        | some w =>
          by_cases hw : w.truthy = true
          · simp [bindArgs, hb, hba, hdb, hw, ih]
          · simp [bindArgs, hb, hba, hdb, hw, ih]

theorem bindArgs_missing (data : String → Option PyVal) (a : String) (v : PyVal)
    (hv : data a = some v) (hf : v.truthy = false) (hself : a ≠ "self") :
    ∀ (pre post : List String) (pos idx : Nat), pos + pre.length < idx →
      ∃ m, bindArgs data (pre ++ a :: post) pos idx =
        Except.error (Err.missingArg m) := by
  intro pre
  induction pre with
  | nil =>
    intro post pos idx hlt
    have hpos : pos < idx := by simpa using hlt
    exact ⟨a, by simp [bindArgs, hself, hv, hf, hpos]⟩
  | cons b rest ih =>
    intro post pos idx hlt
    have hlt' : (pos + 1) + rest.length < idx := by
      simp only [List.length_cons] at hlt
      omega
    by_cases hb : b = "self"
    · obtain ⟨m, hm⟩ := ih post (pos + 1) idx hlt'
      exact ⟨m, by simp [bindArgs, hb, hm]⟩
    · cases hdb : data b with
      | none =>
        by_cases hpos : pos < idx
        · exact ⟨b, by simp [bindArgs, hb, hdb, hpos]⟩
        · obtain ⟨m, hm⟩ := ih post (pos + 1) idx hlt'
          exact ⟨m, by simp [bindArgs, hb, hdb, hpos, hm]⟩
      | some w =>
        by_cases hw : w.truthy = true
        · obtain ⟨m, hm⟩ := ih post (pos + 1) idx hlt'
          exact ⟨m, by simp [bindArgs, hb, hdb, hw, hm]⟩
        · by_cases hpos : pos < idx
          · exact ⟨b, by simp [bindArgs, hb, hdb, hw, hpos]⟩
          · obtain ⟨m, hm⟩ := ih post (pos + 1) idx hlt'
            exact ⟨m, by simp [bindArgs, hb, hdb, hw, hpos, hm]⟩

/-- C10: a required command parameter that is present in the request but
carries a falsy value (empty string, empty list, `None`) is treated exactly
like an absent parameter: the bound-argument computation is unchanged by
deleting the entry, and when the parameter is mandatory (its position is
below `index`, i.e. it has no default) the command fails with the
missing-mandatory-argument error before any driver operation runs — the
result does not depend on the driver function at all. -/
theorem claim10_falsy_param_is_absent {α : Type}
    (driverFunc : List (String × PyVal) → Except Err α)
    (args : List String) (idx : Nat) (data : String → Option PyVal)
    (a : String) (v : PyVal) (hv : data a = some v) (hf : v.truthy = false) :
    runCommand driverFunc args idx data =
      runCommand driverFunc args idx (fun x => if x == a then none else data x) ∧
    (∀ pre post, args = pre ++ a :: post → pre.length < idx → a ≠ "self" →
      isMissingArgErr (runCommand driverFunc args idx data) = true ∧
      ∀ g : List (String × PyVal) → Except Err α,
        runCommand g args idx data = runCommand driverFunc args idx data) := by
  constructor
  · unfold runCommand
    rw [bindArgs_mask data a v hv hf args 0 idx]
  · intro pre post hargs hlen hself
    obtain ⟨m, hm⟩ :=
      bindArgs_missing data a v hv hf hself pre post 0 idx (by simpa using hlen)
    constructor
    · unfold runCommand
      rw [hargs, hm]
      rfl
    · intro g
      unfold runCommand
      rw [hargs, hm]

/-- Witness for C10: the `mkdir`-style signature `(self, name, target, user=None)`
with `name` present but empty behaves like `name` absent, fails with the
missing-argument error, and ignores the driver function. -/
theorem claim10_witness :
    runCommand (fun _ => Except.ok (0 : Nat)) ["self", "name", "target", "user"] 3
        wdata =
      runCommand (fun _ => Except.ok (0 : Nat)) ["self", "name", "target", "user"] 3
        (fun x => if x == "name" then none else wdata x) ∧
    isMissingArgErr (runCommand (fun _ => Except.ok (0 : Nat))
        ["self", "name", "target", "user"] 3 wdata) = true ∧
    runCommand (fun _ => Except.ok (7 : Nat)) ["self", "name", "target", "user"] 3
        wdata =
      runCommand (fun _ => Except.ok (0 : Nat)) ["self", "name", "target", "user"] 3
        wdata := by
  have h := claim10_falsy_param_is_absent (fun _ => Except.ok (0 : Nat))
    ["self", "name", "target", "user"] 3 wdata "name" (PyVal.str "") (by decide)
    (by decide)
  have h2 := h.2 ["self"] ["target", "user"] rfl (by decide) (by decide)
  exact ⟨h.1, h2.1, h2.2 (fun _ => Except.ok (7 : Nat))⟩

/-! ## C5: mkdir / rename name collisions -/

/-- C5 (amended): `mkdir` whose name collides with an existing sibling
folder does not fail — `get_or_create` finds the existing folder, the store
is unchanged, and the existing folder is returned under `added` as if newly
created; `rename` performs no sibling-collision check at all — with `write`
permission it renames the target even when a sibling of the current parent
already carries the new name, leaving two siblings with the same name. -/
theorem claim5_collisions_not_rejected :
    (∀ (hp : PermFn) (u : UserM) (name : String) (target : Nat) (st : Store)
        (parDir existing : INodeRec),
      getNode st target = some parDir →
      hp "add" u parDir = true →
      st.find? (fun r => r.kind == Kind.folder && r.name == name &&
        r.parent == some parDir.id) = some existing →
      mkdirCmd hp u name target st = (st, Except.ok [infoOf st hp u existing])) ∧
    (∀ (hp : PermFn) (u : UserM) (name : String) (target : Nat) (st : Store)
        (inode sib : INodeRec),
      getNode st target = some inode →
      hp "write" u inode = true →
      sib ∈ st → sib.id ≠ inode.id → sib.name = name →
      (renameCmd hp u name target st).2 =
        Except.ok ([infoOf (renameCmd hp u name target st).1 hp u
          { inode with name := name }], [target]) ∧
      { inode with name := name } ∈ (renameCmd hp u name target st).1 ∧
      sib ∈ (renameCmd hp u name target st).1) := by
  constructor
  · intro hp u name target st parDir existing hget hadd hfind
    simp [mkdirCmd, hget, hadd, hfind]
  · intro hp u name target st inode sib hget hwrite hsib hne hname
    refine ⟨?_, ?_, ?_⟩
    · simp [renameCmd, hget, hwrite]
    · simp only [renameCmd, hget, Bool.not_eq_true']
      rw [if_neg (by simp [hwrite])]
      refine List.mem_map.2 ⟨inode, (getNode_mem hget).1, ?_⟩
      simp
    · simp only [renameCmd, hget, Bool.not_eq_true']
      rw [if_neg (by simp [hwrite])]
      refine List.mem_map.2 ⟨sib, hsib, ?_⟩
      simp [hne]

/-- Counterexample for C5 as stated: `mkdir` of the existing name `dest`
under the root succeeds (returning the existing folder) instead of failing
with a collision, and `rename` of file `a` to the sibling name `b` succeeds,
leaving two siblings named `b`. -/
theorem claim5_counterexample :
    (mkdirCmd modelsPerm superU "dest" 1 wstore).1 = wstore ∧
    (mkdirCmd modelsPerm superU "dest" 1 wstore).2 =
      Except.ok [infoOf wstore modelsPerm superU wdest] ∧
    (renameCmd modelsPerm superU "b" 3 wstore).2.isOk = true ∧
    ((renameCmd modelsPerm superU "b" 3 wstore).1.filter
      (fun r => r.parent == some 1 && r.name == "b")).length = 2 := by
  decide

/-- Witness for C5's amended statement at concrete inputs. -/
theorem claim5_witness :
    mkdirCmd modelsPerm superU "dest" 1 wstore =
      (wstore, Except.ok [infoOf wstore modelsPerm superU wdest]) ∧
    { wfileA with name := "b" } ∈ (renameCmd modelsPerm superU "b" 3 wstore).1 ∧
    wfileB ∈ (renameCmd modelsPerm superU "b" 3 wstore).1 := by
  have h1 := claim5_collisions_not_rejected.1 modelsPerm superU "dest" 1 wstore
    wroot wdest (by decide) (by decide) (by decide)
  have h2 := claim5_collisions_not_rejected.2 modelsPerm superU "b" 3 wstore
    wfileA wfileB (by decide) (by decide) (by decide) (by decide) (by decide)
  exact ⟨h1, h2.2.1, h2.2.2⟩

/-! ## C6: the root is not protected against rename / remove -/

/-- C6 (amended): neither `rename` nor `remove` special-cases the global
root.  Any caller passing the `write` permission check can rename the root
(the renamed root is in the resulting store), and any caller passing the
`remove` permission check can remove it, which cascades over the whole tree
and leaves no node with the root's hash. -/
theorem claim6_root_not_protected :
    (∀ (hp : PermFn) (u : UserM) (name : String) (st : Store) (rootId : Nat)
        (rootN : INodeRec),
      getNode st rootId = some rootN →
      rootN.parent = none →
      hp "write" u rootN = true →
      (renameCmd hp u name rootId st).2 =
        Except.ok ([infoOf (renameCmd hp u name rootId st).1 hp u
          { rootN with name := name }], [rootId]) ∧
      { rootN with name := name } ∈ (renameCmd hp u name rootId st).1) ∧
    (∀ (hp : PermFn) (u : UserM) (st : Store) (rootId : Nat) (rootN : INodeRec),
      getNode st rootId = some rootN →
      rootN.parent = none →
      hp "remove" u rootN = true →
      removeCmd hp u [rootId] st = (deleteRec st rootN, Except.ok [rootId]) ∧
      getNode (deleteRec st rootN) rootId = none) := by
  constructor
  · intro hp u name st rootId rootN hget _hroot hwrite
    refine ⟨?_, ?_⟩
    · simp [renameCmd, hget, hwrite]
    · simp only [renameCmd, hget, Bool.not_eq_true']
      rw [if_neg (by simp [hwrite])]
      refine List.mem_map.2 ⟨rootN, (getNode_mem hget).1, ?_⟩
      simp
  · intro hp u st rootId rootN hget _hroot hperm
    have hid : rootN.id = rootId := (getNode_mem hget).2
    refine ⟨?_, ?_⟩
    · simp [removeCmd, hget, hperm]
    · rw [getNode, List.find?_eq_none]
      intro x hx
      have hmem := (List.mem_filter.1 hx).2
      simp only [Bool.not_eq_true', Bool.or_eq_false_iff] at hmem
      simp only [beq_iff_eq]
      rw [← hid]
      intro hxe
      rw [hxe] at hmem
      simp at hmem

/-- Counterexample for C6 as stated: a superuser renames the root to
`pwned` and removes the root (wiping the whole tree); neither command
fails. -/
theorem claim6_counterexample :
    (renameCmd modelsPerm superU "pwned" 1 wstore).2.isOk = true ∧
    (getNode (renameCmd modelsPerm superU "pwned" 1 wstore).1 1).map
      (fun r => r.name) = some "pwned" ∧
    removeCmd modelsPerm superU [1] wstore = ([], Except.ok [1]) := by
  decide

/-- Witness for C6's amended statement at concrete inputs. -/
theorem claim6_witness :
    { wroot with name := "pwned" } ∈
      (renameCmd modelsPerm superU "pwned" 1 wstore).1 ∧
    removeCmd modelsPerm superU [1] wstore =
      (deleteRec wstore wroot, Except.ok [1]) ∧
    getNode (deleteRec wstore wroot) 1 = none := by
  have h1 := claim6_root_not_protected.1 modelsPerm superU "pwned" wstore 1 wroot
    (by decide) rfl (by decide)
  have h2 := claim6_root_not_protected.2 modelsPerm superU wstore 1 wroot
    (by decide) rfl (by decide)
  exact ⟨h1.2, h2.1, h2.2⟩

/-! ## C7: remove is not best-effort -/

theorem removeCmd_append (hp : PermFn) (u : UserM) :
    ∀ (ts us : List Nat) (st : Store),
      removeCmd hp u (ts ++ us) st =
        match removeCmd hp u ts st with
        | (st', Except.ok rm) =>
          match removeCmd hp u us st' with
          | (st'', Except.ok rm') => (st'', Except.ok (rm ++ rm'))
          | (st'', Except.error e) => (st'', Except.error e)
        | (st', Except.error e) => (st', Except.error e) := by
  intro ts
  induction ts with
  | nil =>
    intro us st
    simp only [List.nil_append, removeCmd]
    rcases h : removeCmd hp u us st with ⟨st'', r⟩
    cases r <;> simp
  | cons t ts ih =>
    intro us st
    simp only [List.cons_append, removeCmd]
    cases hg : getNode st t with
    | none => simp
    | some inode =>
      by_cases hperm : hp "remove" u inode = true
      · simp only [hperm, Bool.not_true, Bool.false_eq_true, if_false,
          List.append_eq]
        rw [ih us (deleteRec st inode)]
        rcases h1 : removeCmd hp u ts (deleteRec st inode) with ⟨st1, r1⟩
        cases r1 with
        | error e => simp
        | ok rm =>
          rcases h2 : removeCmd hp u us st1 with ⟨st2, r2⟩
          cases r2 <;> simp [h2]
      · have hperm' : hp "remove" u inode = false := by
          simpa using hperm
        simp [hperm']

/-- C7 (amended): `remove` is not best-effort per target.  The first target
failing the `remove` permission check aborts the whole command with
`PermissionDenied`: the response is the error envelope (the accumulated
`removed` list is discarded), targets after the failing one are not deleted,
and targets before it have already been deleted and stay deleted.  (With the
shipped permission model the check is uniform per user, so for the shipped
classes the failure always occurs at the first target.) -/
theorem claim7_remove_batch_aborts (hp : PermFn) (u : UserM) (ts ts' : List Nat)
    (t : Nat) (st st' : Store) (rm : List Nat) (inode : INodeRec)
    (hpre : removeCmd hp u ts st = (st', Except.ok rm))
    (hget : getNode st' t = some inode)
    (hperm : hp "remove" u inode = false) :
    removeCmd hp u (ts ++ t :: ts') st =
      (st', Except.error Err.permissionDenied) := by
  rw [removeCmd_append hp u ts (t :: ts') st, hpre]
  simp [removeCmd, hget, hperm]

/-- Counterexample for C7 as stated: a plain user's `remove` of file `a`
does not skip the unpermitted target and report it as not removed — it
raises `PermissionDenied`, so the response is the error envelope and carries
no `removed` list at all. -/
theorem claim7_counterexample :
    removeCmd modelsPerm plainU [3] wstore =
      (wstore, Except.error Err.permissionDenied) := by
  decide

/-- Witness for C7's amended statement: with a permission oracle denying
only node `4`, the batch `[3, 4]` deletes node `3`, then aborts on node `4`
with the error envelope, keeping the deletion of node `3`. -/
theorem claim7_witness :
    removeCmd (fun _ _ r => !(r.id == 4)) superU [3, 4] wstore =
      (deleteRec wstore wfileA, Except.error Err.permissionDenied) :=
  claim7_remove_batch_aborts (fun _ _ r => !(r.id == 4)) superU [3] [] 4 wstore
    (deleteRec wstore wfileA) [3] wfileB (by decide) (by decide) (by decide)

/-! ## C2, C3, C4: paste -/

/-- C2 (code bug): the batch-collision contract cannot be exhibited because
the collision check itself is what crashes.  For any paste whose batch is
nonempty, once source, destination, the `add` permission, the first
target's resolution and its `read` permission pass, the command aborts with
`AttributeError` at `dst_dir.children` — *before* the collision comparison
and before any copy, move or removal — so the node store is indeed left
completely unchanged, but the failure is the attribute error, never the
collision error naming the conflicting item, and it happens whether or not
any name collides. -/
theorem claim2_paste_crashes_before_collision (hp : PermFn) (u : UserM)
    (t : Nat) (ts : List Nat) (src dst : Nat) (cut : String) (st : Store)
    (srcN dstDir inode : INodeRec)
    (hsrc : getNode st src = some srcN)
    (hdst : getNode st dst = some dstDir)
    (hadd : hp "add" u dstDir = true)
    (hget : getNode st t = some inode)
    (hread : hp "read" u inode = true) :
    pasteCmd hp u (t :: ts) src dst cut st =
      (st, Except.error (Err.attributeError "children")) := by
  simp [pasteCmd, hsrc, hdst, hadd, hget, hread]

/-- Witness for C2 at a batch whose target name does collide with a child
of the destination: the command still fails with the attribute error, not
the collision error, and the store is untouched. -/
theorem claim2_crash_witness :
    pasteCmd modelsPerm superU [4] 1 2 "0" wstore =
      (wstore, Except.error (Err.attributeError "children")) :=
  claim2_paste_crashes_before_collision modelsPerm superU 4 [] 1 2 "0" wstore
    wroot wdest wfileB (by decide) (by decide) (by decide) (by decide)
    (by decide)

/-- C3 (code bug): a paste with `cut=1` never moves anything, so no node is
ever "reachable under the destination after the command": the command
aborts with `AttributeError` at the collision check, the store is
unchanged, and the target is still found at its old hash with its old
parent link.  (The move logic that exists, `_copy_inode` plus
`inode.delete()`, is unreachable — and `_copy_inode` could not move in
place anyway: it clears the `Folder`/`File` row key rather than the `INode`
key that is the hash, and assigns to the setter-less `parent` property.) -/
theorem claim3_move_never_happens (hp : PermFn) (u : UserM)
    (t src dst : Nat) (st : Store) (srcN dstDir inode : INodeRec)
    (hsrc : getNode st src = some srcN)
    (hdst : getNode st dst = some dstDir)
    (hadd : hp "add" u dstDir = true)
    (hget : getNode st t = some inode)
    (hread : hp "read" u inode = true) :
    pasteCmd hp u [t] src dst "1" st =
      (st, Except.error (Err.attributeError "children")) ∧
    getNode (pasteCmd hp u [t] src dst "1" st).1 t = some inode := by
  have h : pasteCmd hp u [t] src dst "1" st =
      (st, Except.error (Err.attributeError "children")) := by
    simp [pasteCmd, hsrc, hdst, hadd, hget, hread]
  refine ⟨h, ?_⟩
  rw [h]
  exact hget

/-- Witness for C3: moving file `a` into `dest` crashes; node `3` stays
under the root. -/
theorem claim3_crash_witness :
    pasteCmd modelsPerm superU [3] 1 2 "1" wstore =
      (wstore, Except.error (Err.attributeError "children")) ∧
    getNode (pasteCmd modelsPerm superU [3] 1 2 "1" wstore).1 3 =
      some wfileA :=
  claim3_move_never_happens modelsPerm superU 3 1 2 wstore wroot wdest wfileA
    (by decide) (by decide) (by decide) (by decide) (by decide)

/-- C4 (code bug): a paste with `cut=0` never copies anything — deeply or
shallowly.  It aborts with `AttributeError` at `dst_dir.children` before
`_copy_inode` runs, so no row is created, no descendant is duplicated, no
blob is touched, and the store is exactly the input store. -/
theorem claim4_copy_never_happens (hp : PermFn) (u : UserM)
    (t src dst : Nat) (st : Store) (srcN dstDir inode : INodeRec)
    (hsrc : getNode st src = some srcN)
    (hdst : getNode st dst = some dstDir)
    (hadd : hp "add" u dstDir = true)
    (hget : getNode st t = some inode)
    (hread : hp "read" u inode = true) :
    pasteCmd hp u [t] src dst "0" st =
      (st, Except.error (Err.attributeError "children")) ∧
    (pasteCmd hp u [t] src dst "0" st).1 = st := by
  have h : pasteCmd hp u [t] src dst "0" st =
      (st, Except.error (Err.attributeError "children")) := by
    simp [pasteCmd, hsrc, hdst, hadd, hget, hread]
  exact ⟨h, by rw [h]⟩

/-- Witness for C4: copying folder `f` (which holds file `g`) into `dest`
crashes and leaves the store exactly as it was. -/
theorem claim4_crash_witness :
    pasteCmd modelsPerm superU [6] 1 2 "0" wstore =
      (wstore, Except.error (Err.attributeError "children")) ∧
    (pasteCmd modelsPerm superU [6] 1 2 "0" wstore).1 = wstore :=
  claim4_copy_never_happens modelsPerm superU 6 1 2 wstore wroot wdest
    wfolderF (by decide) (by decide) (by decide) (by decide) (by decide)

/-! ## C1: permission-filtered subtree listing -/

theorem RDesc_snoc {st : Store} {readable : INodeRec → Bool} {p : Nat}
    {m : INodeRec} (hd : RDesc st readable p m) :
    ∀ {c : INodeRec}, c ∈ st → c.parent = some m.id → readable c = true →
      RDesc st readable p c := by
  induction hd with
  | base hm hpm hrm =>
    intro c hc hpar hr
    exact RDesc.step hm hpm hrm (RDesc.base hc hpar hr)
  | step hm hpm hrm _hd ih =>
    intro c hc hpar hr
    exact RDesc.step hm hpm hrm (ih hc hpar hr)

theorem bfsAux_sound {st : Store} {readable : INodeRec → Bool} {s : Nat} :
    ∀ (fuel : Nat) (queue : List INodeRec),
      (∀ q ∈ queue, RDesc st readable s q) →
      ∀ n ∈ bfsAux st readable fuel queue, RDesc st readable s n := by
  intro fuel
  induction fuel with
  | zero =>
    intro queue _ n hn
    simp [bfsAux] at hn
  | succ fuel ih =>
    intro queue hq n hn
    cases queue with
    | nil => simp [bfsAux] at hn
    | cons m rest =>
      simp only [bfsAux] at hn
      rcases List.mem_append.1 hn with h | h
      · have hm := mem_readChildren.1 h
        exact RDesc_snoc (hq m (List.mem_cons_self m rest)) hm.1.1 hm.1.2 hm.2
      · refine ih (rest ++ readChildren st readable m.id) ?_ n h
        intro q hqm
        rcases List.mem_append.1 hqm with h' | h'
        · exact hq q (List.mem_cons_of_mem m h')
        · have hm := mem_readChildren.1 h'
          exact RDesc_snoc (hq m (List.mem_cons_self m rest)) hm.1.1 hm.1.2 hm.2

theorem bfsAux_complete {st : Store} {readable : INodeRec → Bool} {s : Nat}
    (hdist : st.Pairwise (fun a b => a.id ≠ b.id))
    (hlt : ∀ r ∈ st, ∀ p ∈ r.parent, p < r.id) :
    ∀ (fuel : Nat) (D queue : List INodeRec),
      ((st.map (fun r => r.id)).toFinset \
        (D.map (fun r => r.id)).toFinset).card ≤ fuel →
      (∀ x ∈ D ++ queue, x ∈ st) →
      (D ++ queue).Pairwise (fun a b => a.id ≠ b.id) →
      (∀ x ∈ D ++ queue, ∀ p ∈ x.parent, p = s ∨ p ∈ D.map (fun r => r.id)) →
      (∀ x ∈ D ++ queue, s < x.id) →
      ∀ m ∈ queue, ∀ n, RDesc st readable m.id n →
        n ∈ bfsAux st readable fuel queue := by
  intro fuel
  induction fuel with
  | zero =>
    intro D queue hfuel hmem hpair _hpar _hgt m hm n _hdesc
    exfalso
    have hmst : m ∈ st := hmem m (List.mem_append.2 (Or.inr hm))
    have hmid : m.id ∉ D.map (fun r => r.id) := by
      intro hmem'
      rcases List.mem_map.1 hmem' with ⟨d, hd, hdid⟩
      exact (List.pairwise_append.1 hpair).2.2 d hd m hm hdid
    have hin : m.id ∈ (st.map (fun r => r.id)).toFinset \
        (D.map (fun r => r.id)).toFinset := by
      rw [Finset.mem_sdiff, List.mem_toFinset, List.mem_toFinset]
      exact ⟨List.mem_map.2 ⟨m, hmst, rfl⟩, hmid⟩
    have := Finset.card_pos.2 ⟨m.id, hin⟩
    omega
  | succ fuel ih =>
    intro D queue hfuel hmem hpair hpar hgt m hm n hdesc
    cases queue with
    | nil => cases hm
    | cons m' rest =>
      have hm'q : m' ∈ m' :: rest := List.mem_cons_self m' rest
      have hm'st : m' ∈ st := hmem m' (List.mem_append.2 (Or.inr hm'q))
      have hm'id : m'.id ∉ D.map (fun r => r.id) := by
        intro hmem'
        rcases List.mem_map.1 hmem' with ⟨d, hd, hdid⟩
        exact (List.pairwise_append.1 hpair).2.2 d hd m' hm'q hdid
      have hcs_mem : ∀ c ∈ readChildren st readable m'.id,
          c ∈ st ∧ c.parent = some m'.id ∧ readable c = true := by
        intro c hc
        exact ⟨(mem_readChildren.1 hc).1.1, (mem_readChildren.1 hc).1.2,
          (mem_readChildren.1 hc).2⟩
      have hcs_gt : ∀ c ∈ readChildren st readable m'.id, m'.id < c.id := by
        intro c hc
        exact hlt c (hcs_mem c hc).1 m'.id
          (by simp [Option.mem_def, (hcs_mem c hc).2.1])
      have hcross : ∀ a ∈ D ++ m' :: rest,
          ∀ c ∈ readChildren st readable m'.id, a.id ≠ c.id := by
        intro a ha c hc hacid
        have hast : a ∈ st := hmem a ha
        have hcm : c ∈ st := (hcs_mem c hc).1
        have hcp : c.parent = some m'.id := (hcs_mem c hc).2.1
        have hac : a = c := idInj hdist a hast c hcm hacid
        rw [hac] at ha
        rcases List.mem_append.1 ha with haD | haq
        · rcases hpar c (List.mem_append.2 (Or.inl haD)) m'.id
              (by simp [Option.mem_def, hcp]) with h | h
          · have hgt' := hgt m' (List.mem_append.2 (Or.inr hm'q))
            omega
          · exact hm'id h
        · rcases List.mem_cons.1 haq with hae | hae
          · have hlt' := hlt c hcm m'.id (by simp [Option.mem_def, hcp])
            rw [hae] at hlt'
            omega
          · rcases hpar c
                (List.mem_append.2 (Or.inr (List.mem_cons_of_mem m' hae))) m'.id
                (by simp [Option.mem_def, hcp]) with h | h
            · have hgt' := hgt m' (List.mem_append.2 (Or.inr hm'q))
              omega
            · exact hm'id h
      have hmem' : ∀ x ∈ (D ++ [m']) ++ (rest ++ readChildren st readable m'.id),
          x ∈ st := by
        intro x hx
        simp only [List.mem_append, List.mem_singleton] at hx
        rcases hx with (hx | hx) | (hx | hx)
        · exact hmem x (List.mem_append.2 (Or.inl hx))
        · rw [hx]; exact hm'st
        · exact hmem x (List.mem_append.2 (Or.inr (List.mem_cons_of_mem m' hx)))
        · exact (hcs_mem x hx).1
      have hpair' : ((D ++ [m']) ++
          (rest ++ readChildren st readable m'.id)).Pairwise
            (fun a b => a.id ≠ b.id) := by
        have hrearr : (D ++ [m']) ++ (rest ++ readChildren st readable m'.id) =
            (D ++ m' :: rest) ++ readChildren st readable m'.id := by
          simp [List.append_assoc]
        rw [hrearr, List.pairwise_append]
        refine ⟨hpair, ?_, hcross⟩
        exact List.Pairwise.sublist
          (List.Sublist.trans (List.filter_sublist _) (List.filter_sublist _))
          hdist
      have hpar' : ∀ x ∈ (D ++ [m']) ++ (rest ++ readChildren st readable m'.id),
          ∀ p ∈ x.parent, p = s ∨ p ∈ (D ++ [m']).map (fun r => r.id) := by
        intro x hx p hp
        have hDsub : ∀ q, q ∈ D.map (fun r => r.id) →
            q ∈ (D ++ [m']).map (fun r => r.id) := by
          intro q hq
          rw [List.map_append]
          exact List.mem_append.2 (Or.inl hq)
        simp only [List.mem_append, List.mem_singleton] at hx
        rcases hx with (hx | hx) | (hx | hx)
        · rcases hpar x (List.mem_append.2 (Or.inl hx)) p hp with h | h
          · exact Or.inl h
          · exact Or.inr (hDsub _ h)
        · rcases hpar x (by rw [hx]; exact List.mem_append.2 (Or.inr hm'q)) p hp
            with h | h
          · exact Or.inl h
          · exact Or.inr (hDsub _ h)
        · rcases hpar x
              (List.mem_append.2 (Or.inr (List.mem_cons_of_mem m' hx))) p hp
            with h | h
          · exact Or.inl h
          · exact Or.inr (hDsub _ h)
        · right
          have hxp : x.parent = some m'.id := (hcs_mem x hx).2.1
          rw [Option.mem_def, hxp] at hp
          have hpm : p = m'.id := (Option.some_inj.1 hp).symm
          rw [hpm, List.map_append]
          apply List.mem_append.2
          right
          simp
      have hgt' : ∀ x ∈ (D ++ [m']) ++ (rest ++ readChildren st readable m'.id),
          s < x.id := by
        intro x hx
        simp only [List.mem_append, List.mem_singleton] at hx
        rcases hx with (hx | hx) | (hx | hx)
        · exact hgt x (List.mem_append.2 (Or.inl hx))
        · rw [hx]; exact hgt m' (List.mem_append.2 (Or.inr hm'q))
        · exact hgt x (List.mem_append.2 (Or.inr (List.mem_cons_of_mem m' hx)))
        · have h1 := hgt m' (List.mem_append.2 (Or.inr hm'q))
          have h2 := hcs_gt x hx
          omega
      have hfuel' : ((st.map (fun r => r.id)).toFinset \
          ((D ++ [m']).map (fun r => r.id)).toFinset).card ≤ fuel := by
        have hmidin : m'.id ∈ (st.map (fun r => r.id)).toFinset \
            (D.map (fun r => r.id)).toFinset := by
          rw [Finset.mem_sdiff, List.mem_toFinset, List.mem_toFinset]
          exact ⟨List.mem_map.2 ⟨m', hm'st, rfl⟩, hm'id⟩
        have hsub : (st.map (fun r => r.id)).toFinset \
            ((D ++ [m']).map (fun r => r.id)).toFinset ⊆
              (st.map (fun r => r.id)).toFinset \
                (D.map (fun r => r.id)).toFinset := by
          apply Finset.sdiff_subset_sdiff (le_refl _)
          rw [List.map_append, List.toFinset_append]
          exact Finset.subset_union_left
        have hss : (st.map (fun r => r.id)).toFinset \
            ((D ++ [m']).map (fun r => r.id)).toFinset ⊂
              (st.map (fun r => r.id)).toFinset \
                (D.map (fun r => r.id)).toFinset := by
          rw [Finset.ssubset_iff_of_subset hsub]
          refine ⟨m'.id, hmidin, ?_⟩
          intro hcontra
          rw [Finset.mem_sdiff] at hcontra
          apply hcontra.2
          rw [List.map_append, List.toFinset_append]
          apply Finset.mem_union_right
          simp
        have := Finset.card_lt_card hss
        omega
      rcases List.mem_cons.1 hm with hmm' | hmrest
      · rw [hmm'] at hdesc
        cases hdesc with
        | base hc hp hr =>
          simp only [bfsAux]
          exact List.mem_append.2 (Or.inl (mem_readChildren.2 ⟨⟨hc, hp⟩, hr⟩))
        | step hc hp hr hd' =>
          simp only [bfsAux]
          apply List.mem_append.2
          right
          exact ih (D ++ [m']) (rest ++ readChildren st readable m'.id) hfuel'
            hmem' hpair' hpar' hgt' _
            (List.mem_append.2 (Or.inr (mem_readChildren.2 ⟨⟨hc, hp⟩, hr⟩))) n hd'
      · simp only [bfsAux]
        apply List.mem_append.2
        right
        exact ih (D ++ [m']) (rest ++ readChildren st readable m'.id) hfuel'
          hmem' hpair' hpar' hgt' m (List.mem_append.2 (Or.inl hmrest)) n hdesc

/-- The property the `_children_tree` walk was written to have (on its
relational reading, which the shipped code never reaches): a node appears
in the breadth-first listing started at `s` if and only if it is a strict
descendant of `s` such that the node itself and every strict ancestor
below `s` is readable, unreadable nodes being omitted without an error and
their descendants never visited.  This is the content of claim C1; the
shipped commands crash instead (`claim1_listing_crashes`). -/
theorem children_tree_intended_filter (st : Store) (readable : INodeRec → Bool)
    (s : Nat) (hwf : WF st) (n : INodeRec) :
    n ∈ childrenTree st readable s ↔ RDesc st readable s n := by
  constructor
  · intro hn
    unfold childrenTree at hn
    rcases List.mem_append.1 hn with h | h
    · have hm := mem_readChildren.1 h
      exact RDesc.base hm.1.1 hm.1.2 hm.2
    · refine bfsAux_sound st.length (readChildren st readable s) ?_ n h
      intro q hq
      have hm := mem_readChildren.1 hq
      exact RDesc.base hm.1.1 hm.1.2 hm.2
  · intro hdesc
    unfold childrenTree
    have hfuel : ((st.map (fun r => r.id)).toFinset \
        (([] : Store).map (fun r => r.id)).toFinset).card ≤ st.length := by
      simp only [List.map_nil, List.toFinset_nil, Finset.sdiff_empty]
      calc (st.map (fun r => r.id)).toFinset.card
          ≤ (st.map (fun r => r.id)).length := List.toFinset_card_le _
        _ = st.length := List.length_map _ _
    have hmem : ∀ x ∈ ([] : Store) ++ readChildren st readable s, x ∈ st := by
      intro x hx
      simp only [List.nil_append] at hx
      exact (mem_readChildren.1 hx).1.1
    have hpair : (([] : Store) ++ readChildren st readable s).Pairwise
        (fun a b => a.id ≠ b.id) := by
      simp only [List.nil_append]
      exact List.Pairwise.sublist
        (List.Sublist.trans (List.filter_sublist _) (List.filter_sublist _))
        hwf.distinct
    have hpar : ∀ x ∈ ([] : Store) ++ readChildren st readable s,
        ∀ p ∈ x.parent, p = s ∨ p ∈ (([] : Store)).map (fun r => r.id) := by
      intro x hx p hp
      simp only [List.nil_append] at hx
      left
      have hxp := (mem_readChildren.1 hx).1.2
      rw [Option.mem_def, hxp] at hp
      exact (Option.some_inj.1 hp).symm
    have hgt : ∀ x ∈ ([] : Store) ++ readChildren st readable s, s < x.id := by
      intro x hx
      simp only [List.nil_append] at hx
      have hm := mem_readChildren.1 hx
      exact hwf.parentLt x hm.1.1 s (by simp [Option.mem_def, hm.1.2])
    cases hdesc with
    | base hc hp hr =>
      exact List.mem_append.2 (Or.inl (mem_readChildren.2 ⟨⟨hc, hp⟩, hr⟩))
    | step hc hp hr hd' =>
      apply List.mem_append.2
      right
      exact bfsAux_complete hwf.distinct hwf.parentLt st.length []
        (readChildren st readable s) hfuel hmem hpair hpar hgt _
        (mem_readChildren.2 ⟨⟨hc, hp⟩, hr⟩) n hd'

/-- C1 (code bug): no subtree listing command ever produces a descriptor
list.  As soon as the target and root hashes resolve, `open`, `tree` and
`list` all abort with `AttributeError`: `_children_tree` evaluates
`curr_node.children.select_subclasses()` on the cast `Folder`/`File` row,
which has no `children` attribute (and `INodeManager` has no
`select_subclasses`).  The dispatcher converts the exception into the
error envelope, so readable nodes are never listed and unreadable nodes
are not "silently omitted" — the whole command errors, for every store and
every caller, superuser included. -/
theorem claim1_listing_crashes (st : Store) (hp : PermFn) (u : UserM)
    (rootId targetId : Nat) (target rootN : INodeRec)
    (htarget : getNode st targetId = some target)
    (hroot : getNode st rootId = some rootN) :
    treeData st hp u rootId targetId =
      Except.error (Err.attributeError "children") ∧
    treeCmd st hp u rootId targetId =
      Except.error (Err.attributeError "children") ∧
    openCmd st hp u rootId (some targetId) =
      Except.error (Err.attributeError "children") ∧
    listCmd st hp u rootId targetId =
      Except.error (Err.attributeError "children") := by
  have h1 : treeData st hp u rootId targetId =
      Except.error (Err.attributeError "children") := by
    simp [treeData, htarget, hroot]
  refine ⟨h1, h1, ?_, ?_⟩
  · simp [openCmd, Option.getD, h1]
  · simp [listCmd, h1]

/-- Witness for C1: opening the root of `wstore` as a superuser yields the
attribute error on every listing command. -/
theorem claim1_crash_witness :
    treeData wstore modelsPerm superU 1 1 =
      Except.error (Err.attributeError "children") ∧
    treeCmd wstore modelsPerm superU 1 1 =
      Except.error (Err.attributeError "children") ∧
    openCmd wstore modelsPerm superU 1 (some 1) =
      Except.error (Err.attributeError "children") ∧
    listCmd wstore modelsPerm superU 1 1 =
      Except.error (Err.attributeError "children") :=
  claim1_listing_crashes wstore modelsPerm superU 1 1 wroot wroot (by decide)
    (by decide)

/-! ## C9: size aggregation -/

theorem ancIds_id_zero {st : Store}
    (hlt : ∀ r ∈ st, ∀ p ∈ r.parent, p < r.id) :
    ∀ f, ancIds st f 0 = [] := by
  intro f
  cases f with
  | zero => rfl
  | succ f =>
    simp only [ancIds]
    cases hfind : st.find? (fun r => r.id == 0) with
    | none => simp
    | some r =>
      simp only []
      cases hpar : r.parent with
      | none => simp
      | some p =>
        exfalso
        have hrm := List.mem_of_find?_eq_some hfind
        have hrid : r.id = 0 := by simpa using List.find?_some hfind
        have := hlt r hrm p (by simp [Option.mem_def, hpar])
        omega

theorem ancIds_fuel {st : Store}
    (hlt : ∀ r ∈ st, ∀ p ∈ r.parent, p < r.id) :
    ∀ i f₁ f₂, i ≤ f₁ → i ≤ f₂ → ancIds st f₁ i = ancIds st f₂ i := by
  intro i
  induction i using Nat.strong_induction_on with
  | _ i ih =>
    intro f₁ f₂ h1 h2
    cases i with
    | zero => rw [ancIds_id_zero hlt f₁, ancIds_id_zero hlt f₂]
    | succ k =>
      obtain ⟨a, ha⟩ : ∃ a, f₁ = a + 1 := ⟨f₁ - 1, by omega⟩
      obtain ⟨b, hb⟩ : ∃ b, f₂ = b + 1 := ⟨f₂ - 1, by omega⟩
      subst ha hb
      simp only [ancIds]
      cases hfind : st.find? (fun r => r.id == k + 1) with
      | none => simp
      | some r =>
        simp only []
        cases hpar : r.parent with
        | none => simp
        | some p =>
          have hrm := List.mem_of_find?_eq_some hfind
          have hrid : r.id = k + 1 := by simpa using List.find?_some hfind
          have hplt : p < k + 1 := by
            have := hlt r hrm p (by simp [Option.mem_def, hpar])
            omega
          simp only []
          rw [ih p hplt a b (by omega) (by omega)]

theorem chain_step {st : Store}
    (hdist : st.Pairwise (fun a b => a.id ≠ b.id))
    (hlt : ∀ r ∈ st, ∀ p ∈ r.parent, p < r.id)
    {r : INodeRec} {p : Nat} (hr : r ∈ st) (hp : r.parent = some p) :
    chainOf st r.id = p :: chainOf st p := by
  have hplt : p < r.id := hlt r hr p (by simp [Option.mem_def, hp])
  have hfind : st.find? (fun x => x.id == r.id) = some r := getNode_self hdist hr
  obtain ⟨k, hk⟩ : ∃ k, r.id = k + 1 := ⟨r.id - 1, by omega⟩
  rw [hk] at hfind
  unfold chainOf
  rw [hk]
  simp only [ancIds, hfind, hp]
  rw [ancIds_fuel hlt p k p (by omega) (le_refl p)]

theorem chain_root {st : Store}
    (hdist : st.Pairwise (fun a b => a.id ≠ b.id))
    {r : INodeRec} (hr : r ∈ st) (hp : r.parent = none) :
    chainOf st r.id = [] := by
  have hfind : st.find? (fun x => x.id == r.id) = some r := getNode_self hdist hr
  unfold chainOf
  cases hk : r.id with
  | zero => rfl
  | succ k =>
    rw [hk] at hfind
    simp only [ancIds, hfind, hp]

theorem chain_lt {st : Store}
    (hlt : ∀ r ∈ st, ∀ p ∈ r.parent, p < r.id) :
    ∀ i, ∀ a ∈ chainOf st i, a < i := by
  intro i
  induction i using Nat.strong_induction_on with
  | _ i ih =>
    intro a ha
    cases i with
    | zero =>
      rw [show chainOf st 0 = [] from rfl] at ha
      cases ha
    | succ k =>
      unfold chainOf at ha
      simp only [ancIds] at ha
      cases hfind : st.find? (fun r => r.id == k + 1) with
      | none => simp [hfind] at ha
      | some r =>
        simp only [hfind] at ha
        cases hpar : r.parent with
        | none => simp [hpar] at ha
        | some p =>
          simp only [hpar] at ha
          have hrm := List.mem_of_find?_eq_some hfind
          have hrid : r.id = k + 1 := by simpa using List.find?_some hfind
          have hplt : p < k + 1 := by
            have := hlt r hrm p (by simp [Option.mem_def, hpar])
            omega
          rcases List.mem_cons.1 ha with hap | hatail
          · omega
          · rw [ancIds_fuel hlt p k p (by omega) (le_refl p)] at hatail
            have := ih p hplt a hatail
            omega

theorem chain_trans {st : Store}
    (hlt : ∀ r ∈ st, ∀ p ∈ r.parent, p < r.id) :
    ∀ i b, b ∈ chainOf st i → ∀ a ∈ chainOf st b, a ∈ chainOf st i := by
  intro i
  induction i using Nat.strong_induction_on with
  | _ i ih =>
    intro b hb a ha
    cases i with
    | zero =>
      rw [show chainOf st 0 = [] from rfl] at hb
      cases hb
    | succ k =>
      unfold chainOf at hb ⊢
      simp only [ancIds] at hb ⊢
      cases hfind : st.find? (fun r => r.id == k + 1) with
      | none => simp [hfind] at hb
      | some r =>
        simp only [hfind] at hb ⊢
        cases hpar : r.parent with
        | none => simp [hpar] at hb
        | some p =>
          simp only [hpar] at hb ⊢
          have hrm := List.mem_of_find?_eq_some hfind
          have hrid : r.id = k + 1 := by simpa using List.find?_some hfind
          have hplt : p < k + 1 := by
            have := hlt r hrm p (by simp [Option.mem_def, hpar])
            omega
          rw [ancIds_fuel hlt p k p (by omega) (le_refl p)] at hb ⊢
          rcases List.mem_cons.1 hb with hbp | hbtail
          · rw [hbp] at ha
            exact List.mem_cons_of_mem p ha
          · exact List.mem_cons_of_mem p (ih p hplt b hbtail a ha)

theorem chain_linear {st : Store}
    (hlt : ∀ r ∈ st, ∀ p ∈ r.parent, p < r.id) :
    ∀ i a b, a ∈ chainOf st i → b ∈ chainOf st i →
      a = b ∨ a ∈ chainOf st b ∨ b ∈ chainOf st a := by
  intro i
  induction i using Nat.strong_induction_on with
  | _ i ih =>
    intro a b ha hb
    cases i with
    | zero =>
      rw [show chainOf st 0 = [] from rfl] at ha
      cases ha
    | succ k =>
      unfold chainOf at ha hb
      simp only [ancIds] at ha hb
      cases hfind : st.find? (fun r => r.id == k + 1) with
      | none => simp [hfind] at ha
      | some r =>
        simp only [hfind] at ha hb
        cases hpar : r.parent with
        | none => simp [hpar] at ha
        | some p =>
          simp only [hpar] at ha hb
          have hrm := List.mem_of_find?_eq_some hfind
          have hrid : r.id = k + 1 := by simpa using List.find?_some hfind
          have hplt : p < k + 1 := by
            have := hlt r hrm p (by simp [Option.mem_def, hpar])
            omega
          rw [ancIds_fuel hlt p k p (by omega) (le_refl p)] at ha hb
          rcases List.mem_cons.1 ha with hap | hatail
          · rcases List.mem_cons.1 hb with hbp | hbtail
            · left; rw [hap, hbp]
            · right; right; rw [hap]; exact hbtail
          · rcases List.mem_cons.1 hb with hbp | hbtail
            · right; left; rw [hbp]; exact hatail
            · exact ih p hplt a b hatail hbtail

theorem chain_decomp {st : Store}
    (hdist : st.Pairwise (fun a b => a.id ≠ b.id))
    (hlt : ∀ r ∈ st, ∀ p ∈ r.parent, p < r.id)
    (hpm : ∀ r ∈ st, ∀ p ∈ r.parent, ∃ q ∈ st, q.id = p) :
    ∀ (n : Nat) (x : INodeRec), x ∈ st → x.id = n → ∀ i ∈ chainOf st x.id,
      ∃ c, c ∈ st ∧ c.parent = some i ∧ (c = x ∨ c.id ∈ chainOf st x.id) := by
  intro n
  induction n using Nat.strong_induction_on with
  | _ n ih =>
    intro x hx hxn i hi
    cases hpar : x.parent with
    | none =>
      rw [chain_root hdist hx hpar] at hi
      cases hi
    | some px =>
      rw [chain_step hdist hlt hx hpar] at hi
      rcases List.mem_cons.1 hi with hie | hitail
      · exact ⟨x, hx, by rw [hpar, hie], Or.inl rfl⟩
      · obtain ⟨P, hP, hPid⟩ :=
          hpm x hx px (by simp [Option.mem_def, hpar])
        have hPlt : px < x.id := hlt x hx px (by simp [Option.mem_def, hpar])
        have hPi : i ∈ chainOf st P.id := by rw [hPid]; exact hitail
        obtain ⟨c, hc, hcp, hcor⟩ :=
          ih P.id (by omega) P hP rfl i hPi
        refine ⟨c, hc, hcp, Or.inr ?_⟩
        have hpx_in : px ∈ chainOf st x.id := by
          rw [chain_step hdist hlt hx hpar]
          exact List.mem_cons_self _ _
        rcases hcor with hce | hcin
        · rw [hce, hPid]
          exact hpx_in
        · have hcpx : c.id ∈ chainOf st px := by rw [← hPid]; exact hcin
          exact chain_trans hlt x.id px hpx_in c.id hcpx

theorem descList_sound {st : Store}
    (hdist : st.Pairwise (fun a b => a.id ≠ b.id))
    (hlt : ∀ r ∈ st, ∀ p ∈ r.parent, p < r.id) :
    ∀ (fuel i : Nat) (x : INodeRec), x ∈ descList st fuel i →
      x ∈ st ∧ i ∈ chainOf st x.id := by
  intro fuel
  induction fuel with
  | zero =>
    intro i x hx
    simp [descList] at hx
  | succ fuel ih =>
    intro i x hx
    simp only [descList, List.mem_flatMap] at hx
    obtain ⟨c, hc, hxc⟩ := hx
    have hcm := mem_childrenOf.1 hc
    have hchain : chainOf st c.id = i :: chainOf st i :=
      chain_step hdist hlt hcm.1 hcm.2
    rcases List.mem_cons.1 hxc with hxe | hxtail
    · rw [hxe]
      refine ⟨hcm.1, ?_⟩
      rw [hchain]
      exact List.mem_cons_self _ _
    · obtain ⟨hxst, hcx⟩ := ih c.id x hxtail
      refine ⟨hxst, ?_⟩
      have hic : i ∈ chainOf st c.id := by
        rw [hchain]
        exact List.mem_cons_self _ _
      exact chain_trans hlt x.id c.id hcx i hic

theorem descList_complete {st : Store}
    (hdist : st.Pairwise (fun a b => a.id ≠ b.id))
    (hlt : ∀ r ∈ st, ∀ p ∈ r.parent, p < r.id)
    (hpm : ∀ r ∈ st, ∀ p ∈ r.parent, ∃ q ∈ st, q.id = p) :
    ∀ (fuel : Nat) (i : Nat) (x : INodeRec), x ∈ st → i ∈ chainOf st x.id →
      x.id ≤ fuel + i → x ∈ descList st fuel i := by
  intro fuel
  induction fuel with
  | zero =>
    intro i x hx hchain hbound
    exfalso
    have := chain_lt hlt x.id i hchain
    omega
  | succ fuel ih =>
    intro i x hx hchain hbound
    obtain ⟨c, hc, hcp, hcor⟩ :=
      chain_decomp hdist hlt hpm x.id x hx rfl i hchain
    have hcchild : c ∈ childrenOf st i := mem_childrenOf.2 ⟨hc, hcp⟩
    have hlt_ic : i < c.id := hlt c hc i (by simp [Option.mem_def, hcp])
    simp only [descList, List.mem_flatMap]
    rcases hcor with hce | hcin
    · exact ⟨c, hcchild, List.mem_cons.2 (Or.inl hce.symm)⟩
    · refine ⟨c, hcchild, List.mem_cons.2 (Or.inr ?_)⟩
      have hchain2 : c.id ∈ chainOf st x.id := hcin
      exact ih c.id x hx hchain2 (by omega)

theorem descList_nodup {st : Store}
    (hdist : st.Pairwise (fun a b => a.id ≠ b.id))
    (hlt : ∀ r ∈ st, ∀ p ∈ r.parent, p < r.id) :
    ∀ (fuel i : Nat), (descList st fuel i).Nodup := by
  intro fuel
  induction fuel with
  | zero =>
    intro i
    simp [descList]
  | succ fuel ih =>
    intro i
    simp only [descList]
    rw [List.nodup_flatMap]
    constructor
    · intro c hc
      rw [List.nodup_cons]
      refine ⟨?_, ih c.id⟩
      intro hmem
      have := (descList_sound hdist hlt fuel c.id c hmem).2
      have := chain_lt hlt c.id c.id this
      omega
    · have hp : (childrenOf st i).Pairwise (fun a b => a.id ≠ b.id) :=
        List.Pairwise.sublist (List.filter_sublist _) hdist
      refine List.Pairwise.imp_of_mem ?_ hp
      intro a b ha hb hne
      intro y hy1 hy2
      have ham := mem_childrenOf.1 ha
      have hbm := mem_childrenOf.1 hb
      have hachain : chainOf st a.id = i :: chainOf st i :=
        chain_step hdist hlt ham.1 ham.2
      have hbchain : chainOf st b.id = i :: chainOf st i :=
        chain_step hdist hlt hbm.1 hbm.2
      have hia : i < a.id := hlt a ham.1 i (by simp [Option.mem_def, ham.2])
      have hib : i < b.id := hlt b hbm.1 i (by simp [Option.mem_def, hbm.2])
      rcases List.mem_cons.1 hy1 with hya | hya
      · rcases List.mem_cons.1 hy2 with hyb | hyb
        · rw [hya] at hyb
          exact hne (congrArg INodeRec.id hyb)
        · -- y = a and y strictly below b: b.id on a's chain, impossible
          have := (descList_sound hdist hlt fuel b.id y hyb).2
          rw [hya, hachain] at this
          rcases List.mem_cons.1 this with h | h
          · omega
          · have := chain_lt hlt i b.id h
            omega
      · rcases List.mem_cons.1 hy2 with hyb | hyb
        · have := (descList_sound hdist hlt fuel a.id y hya).2
          rw [hyb, hbchain] at this
          rcases List.mem_cons.1 this with h | h
          · omega
          · have := chain_lt hlt i a.id h
            omega
        · -- y below both a and b: their ids are comparable on y's chain
          have hay := (descList_sound hdist hlt fuel a.id y hya).2
          have hby := (descList_sound hdist hlt fuel b.id y hyb).2
          rcases chain_linear hlt y.id a.id b.id hay hby with h | h | h
          · exact hne h
          · rw [hbchain] at h
            rcases List.mem_cons.1 h with h' | h'
            · omega
            · have := chain_lt hlt i a.id h'
              omega
          · rw [hachain] at h
            rcases List.mem_cons.1 h with h' | h'
            · omega
            · have := chain_lt hlt i b.id h'
              omega

theorem fileSum_cons (r : INodeRec) (l : List INodeRec) :
    fileSum (r :: l) =
      (if r.kind == Kind.folder then 0 else r.blobSize) + fileSum l := by
  by_cases h : (r.kind == Kind.folder) = true
  · simp [fileSum, List.filter_cons, h]
  · simp only [fileSum, List.filter_cons]
    rw [if_pos (by simp [h])]
    simp [h]

theorem fileSum_append (l₁ l₂ : List INodeRec) :
    fileSum (l₁ ++ l₂) = fileSum l₁ + fileSum l₂ := by
  simp [fileSum, List.filter_append, List.sum_append]

theorem fileSum_flatMap {α : Type} (l : List α) (f : α → List INodeRec) :
    fileSum (l.flatMap f) = (l.map (fun a => fileSum (f a))).sum := by
  induction l with
  | nil => rfl
  | cons a l ih =>
    rw [List.flatMap_cons, fileSum_append, ih, List.map_cons, List.sum_cons]

theorem file_childless {st : Store}
    (hpf : ∀ r ∈ st, ∀ p ∈ r.parent, ∀ q ∈ st, q.id = p →
      q.kind = Kind.folder)
    {r : INodeRec} (hr : r ∈ st) (hk : ¬r.kind = Kind.folder) :
    childrenOf st r.id = [] := by
  unfold childrenOf
  rw [List.filter_eq_nil_iff]
  intro x hx
  simp only [beq_iff_eq]
  intro hpar
  exact hk (hpf x hx r.id (by simp [Option.mem_def, hpar]) r hr rfl)

theorem totalSize_eq_fileSum {st : Store}
    (hpf : ∀ r ∈ st, ∀ p ∈ r.parent, ∀ q ∈ st, q.id = p →
      q.kind = Kind.folder) :
    ∀ (fuel : Nat), ∀ r ∈ st,
      totalSize st fuel r =
        (if r.kind == Kind.folder then 0 else r.blobSize) +
          fileSum (descList st fuel r.id) := by
  intro fuel
  induction fuel with
  | zero =>
    intro r _hr
    by_cases h : (r.kind == Kind.folder) = true
    · simp [totalSize, nodeSize, descList, fileSum, h]
    · simp [totalSize, nodeSize, descList, fileSum, h]
  | succ fuel ih =>
    intro r hr
    by_cases h : (r.kind == Kind.folder) = true
    · simp only [totalSize, h, if_pos, if_true]
      have hcongr : (childrenOf st r.id).map (totalSize st fuel) =
          (childrenOf st r.id).map (fun c =>
            fileSum (c :: descList st fuel c.id)) := by
        apply List.map_congr_left
        intro c hc
        rw [ih c (mem_childrenOf.1 hc).1, fileSum_cons]
      rw [hcongr]
      simp only [descList]
      rw [fileSum_flatMap]
      omega
    · have hk : ¬r.kind = Kind.folder := fun he => h (by simp [he])
      simp only [totalSize, h, Bool.false_eq_true, if_false, nodeSize]
      simp only [descList]
      rw [file_childless hpf hr hk]
      simp [fileSum, h]

/-- C9: a file node's total size is its blob byte length; a folder's total
size is the sum of the blob sizes of all its descendant file nodes (`0` when
it has no file descendants, the empty sum); and the `size` command returns
the sum of the total sizes of its resolved targets. -/
theorem claim9_size_totals (st : Store) (fuel : Nat) (hwf : WF st)
    (hfuel : ∀ x ∈ st, x.id < fuel) :
    (∀ r ∈ st, ¬r.kind = Kind.folder → totalSize st fuel r = r.blobSize) ∧
    (∀ r ∈ st, r.kind = Kind.folder →
      totalSize st fuel r =
        ((st.filter (fun x => !(x.kind == Kind.folder) &&
          decide (r.id ∈ chainOf st x.id))).map (fun x => x.blobSize)).sum) ∧
    (∀ (targets : List Nat) (nodes : List INodeRec),
      targets.mapM (getNode st) = some nodes →
      sizeCmd st fuel targets =
        Except.ok ((nodes.map (totalSize st fuel)).sum)) := by
  refine ⟨?_, ?_, ?_⟩
  · intro r _hr hk
    have hb : (r.kind == Kind.folder) = false := by simp [hk]
    cases fuel with
    | zero => simp [totalSize, nodeSize, hb]
    | succ fuel => simp [totalSize, nodeSize, hb]
  · intro r hr hk
    have h1 := totalSize_eq_fileSum hwf.parentFolder fuel r hr
    rw [h1, if_pos (by simp [hk])]
    have hnodupL : ((descList st fuel r.id).filter
        (fun x => !(x.kind == Kind.folder))).Nodup :=
      (descList_nodup hwf.distinct hwf.parentLt fuel r.id).filter _
    have hstnodup : st.Nodup := by
      refine List.Pairwise.imp ?_ hwf.distinct
      intro a b hne he
      exact hne (congrArg INodeRec.id he)
    have hnodupR : (st.filter (fun x => !(x.kind == Kind.folder) &&
        decide (r.id ∈ chainOf st x.id))).Nodup := hstnodup.filter _
    have hperm : ((descList st fuel r.id).filter
        (fun x => !(x.kind == Kind.folder))).Perm
          (st.filter (fun x => !(x.kind == Kind.folder) &&
            decide (r.id ∈ chainOf st x.id))) := by
      rw [List.perm_ext_iff_of_nodup hnodupL hnodupR]
      intro x
      rw [List.mem_filter, List.mem_filter]
      constructor
      · intro ⟨hxd, hxf⟩
        obtain ⟨hxst, hxchain⟩ :=
          descList_sound hwf.distinct hwf.parentLt fuel r.id x hxd
        exact ⟨hxst, by simp [hxf, hxchain]⟩
      · intro ⟨hxst, hxb⟩
        simp only [Bool.and_eq_true, decide_eq_true_eq] at hxb
        refine ⟨?_, hxb.1⟩
        refine descList_complete hwf.distinct hwf.parentLt hwf.parentMem fuel
          r.id x hxst hxb.2 ?_
        have := hfuel x hxst
        omega
    unfold fileSum
    rw [List.Perm.sum_eq (List.Perm.map _ hperm)]
    simp
  · intro targets
    induction targets with
    | nil =>
      intro nodes hmap
      simp only [List.mapM_nil, Option.pure_def, Option.some.injEq] at hmap
      rw [← hmap]
      rfl
    | cons t ts ih =>
      intro nodes hmap
      rw [List.mapM_cons] at hmap
      simp only [Option.bind_eq_bind, Option.bind_eq_some, Option.pure_def,
        Option.some.injEq] at hmap
      obtain ⟨n, hn, ns, hns, hcons⟩ := hmap
      rw [← hcons]
      simp only [sizeCmd, hn, ih ns hns, List.map_cons, List.sum_cons]

/-- Witness for C9 at the concrete store `wstore`. -/
theorem claim9_witness :
    totalSize wstore 8 wfolderF =
      ((wstore.filter (fun x => !(x.kind == Kind.folder) &&
        decide (wfolderF.id ∈ chainOf wstore x.id))).map
          (fun x => x.blobSize)).sum ∧
    totalSize wstore 8 wfileA = wfileA.blobSize ∧
    sizeCmd wstore 8 [6, 3] =
      Except.ok (([wfolderF, wfileA].map (totalSize wstore 8)).sum) := by
  have h := claim9_size_totals wstore 8
    ⟨by decide, by decide, by decide, by decide⟩ (by decide)
  exact ⟨h.2.1 wfolderF (by decide) rfl, h.1 wfileA (by decide) (by decide),
    h.2.2 [6, 3] [wfolderF, wfileA] (by decide)⟩
